import Mathlib

/-!
Verification development for the CssVars component of the styling-utils
repository.  The component is a process-wide registry of CSS custom
properties with a theme layer and responsive (media-query) overrides.
The embedding below translates the class CssVars from
src/CssVars/CssVars.ts: the registry state is an explicit record that is
threaded through every operation, and the regular-expression based
substitution of embedded reference expressions is modelled by a small
backtracking matcher that follows the semantics of the JavaScript
pattern used in the source, namely

  CssVars.get open-paren quote (lazy one-or-more) quote
    optional (comma, whitespace-star, quote, lazy one-or-more, quote)
  close-paren

with either quote character accepted at each quote position, eager
left-to-right scanning, and the replacement text never rescanned.
Errors thrown by the source (undefined theme, and the type error raised
when a breakpoint map is empty and the base value lookup yields
undefined) are modelled by an explicit error component.  DOM side
effects are modelled by a flag recording whether a document exists and
by an append-only list of text chunks standing for the shared style
container used for generated media rules.
-/

/-- Quote character class of the embedded reference pattern: a single
quote or a double quote. -/
def isQuoteChar (c : Char) : Bool := c = '\x27' || c = '"'

/-- Dot character class of the pattern: any character except a line
terminator. -/
def isDotChar (c : Char) : Bool :=
  !(c = '\n' || c = '\r' || c = '\u2028' || c = '\u2029')

/-- Whitespace character class used by the whitespace-star part of the
pattern: the source language matches ASCII whitespace and the Unicode
whitespace characters, line separators included. -/
def isSpaceChar (c : Char) : Bool :=
  c = ' ' || c = '\t' || c = '\n' || c = '\r' || c = '\x0b' || c = '\x0c' ||
  c = '\u00a0' || c = '\u1680' || c = '\u2000' || c = '\u2001' ||
  c = '\u2002' || c = '\u2003' || c = '\u2004' || c = '\u2005' ||
  c = '\u2006' || c = '\u2007' || c = '\u2008' || c = '\u2009' ||
  c = '\u200a' || c = '\u2028' || c = '\u2029' || c = '\u202f' ||
  c = '\u205f' || c = '\u3000' || c = '\ufeff'

/-- Drop an expected literal character sequence from the front of the
input, failing when the input does not start with it. -/
def dropLit : List Char → List Char → Option (List Char)
  | [], s => some s
  | _ :: _, [] => none
  | c :: cs, d :: ds => if c = d then dropLit cs ds else none

/-- Lazy match of the fallback capture group: the shortest nonempty run
of dot characters followed by a quote character and the closing paren.
Returns the captured fallback text and the input after the closing
paren. -/
def fbLoop : List Char → List Char → Option (List Char × List Char)
  | _, [] => none
  | acc, c :: rest =>
    if isDotChar c then
      match rest with
      | q :: cl :: r =>
        if isQuoteChar q && cl = ')' then some (acc ++ [c], r)
        else fbLoop (acc ++ [c]) rest
      | _ => fbLoop (acc ++ [c]) rest
    else none

/-- Attempt of the optional fallback group: a comma, greedy whitespace,
a quote character, then the lazy fallback capture. -/
def tailMatchGroup : List Char → Option (List Char × List Char)
  | [] => none
  | c :: s1 =>
    if c = ',' then
      match s1.dropWhile isSpaceChar with
      | q :: s3 => if isQuoteChar q then fbLoop [] s3 else none
      | [] => none
    else none

/-- Remainder of the pattern after the closing quote of the reference
capture: the greedy optional fallback group is tried first, and
otherwise the closing paren must follow directly. -/
def tailMatch (s : List Char) : Option (Option (List Char) × List Char) :=
  match tailMatchGroup s with
  | some (fb, r) => some (some fb, r)
  | none =>
    match s with
    | [] => none
    | c :: r => if c = ')' then some (none, r) else none

/-- Lazy match of the reference capture group: the shortest nonempty run
of dot characters followed by a quote character after which the tail of
the pattern succeeds.  On failure of the tail the run is extended, which
reproduces the backtracking of the lazy quantifier. -/
def refLoop : List Char → List Char →
    Option (List Char × Option (List Char) × List Char)
  | _, [] => none
  | acc, c :: rest =>
    if isDotChar c then
      match rest with
      | q :: rest2 =>
        if isQuoteChar q then
          match tailMatch rest2 with
          | some (fb, r) => some (acc ++ [c], fb, r)
          | none => refLoop (acc ++ [c]) rest
        else refLoop (acc ++ [c]) rest
      | [] => none
    else none

/-- Attempt to match the full embedded reference pattern at the start of
the input.  Returns the reference name, the optional fallback text, and
the input after the match. -/
def matchGetAt (s : List Char) : Option (List Char × Option (List Char) × List Char) :=
  match dropLit "CssVars.get(".toList s with
  | none => none
  | some s1 =>
    match s1 with
    | [] => none
    | q :: s2 => if isQuoteChar q then refLoop [] s2 else none

/-- Association list lookup, first binding wins, as in a record object
of the source language where keys are unique. -/
def lookupAssoc {α β : Type} [DecidableEq α] : List (α × β) → α → Option β
  | [], _ => none
  | (k, v) :: rest, key => if k = key then some v else lookupAssoc rest key

/-- Association list update: overwrite the binding in place when the key
exists, otherwise append the new binding. -/
def updateAssoc {α β : Type} [DecidableEq α] : List (α × β) → α → β → List (α × β)
  | [], key, val => [(key, val)]
  | (k, v) :: rest, key, val =>
    if k = key then (key, val) :: rest else (k, v) :: updateAssoc rest key val

/-- Replacement text for one matched reference expression, following the
source: the stored value of the referenced variable when registered,
else the fallback when supplied, else the native reference string. -/
def resolveRef (vars : List (String × String)) (ref : List Char)
    (fb : Option (List Char)) : List Char :=
  match lookupAssoc vars ("--" ++ String.mk ref) with
  | some v => v.toList
  | none =>
    match fb with
    | some f => f
    | none => ("var(--" ++ String.mk ref ++ ")").toList

/-- Global replacement scan: left to right, at each position the pattern
is tried, a match is replaced by its resolution and scanning resumes
after the match, so replacement text is never rescanned.  The fuel
argument is an upper bound on the number of steps and is always called
with the length of the input, which suffices because every step consumes
at least one input character. -/
def replaceGetAux (vars : List (String × String)) : Nat → List Char → List Char
  | _, [] => []
  | 0, s => s
  | fuel + 1, c :: rest =>
    match matchGetAt (c :: rest) with
    | some (ref, fb, after) => resolveRef vars ref fb ++ replaceGetAux vars fuel after
    | none => c :: replaceGetAux vars fuel rest

/-- Full substitution applied by the source to a raw value at set time. -/
def processValue (vars : List (String × String)) (value : String) : String :=
  String.mk (replaceGetAux vars value.toList.length value.toList)

/-- True when the embedded reference pattern matches at some position of
the input. -/
def hasRefAux : List Char → Bool
  | [] => false
  | c :: rest => (matchGetAt (c :: rest)).isSome || hasRefAux rest

/-- True when the value string contains an embedded reference
expression, in the exact sense of the pattern used by the source. -/
def hasRef (value : String) : Bool := hasRefAux value.toList

/-- A theme definition entry: a flat string value or a breakpoint map
from minimum viewport width to value. -/
inductive ThemeValue where
  | str : String → ThemeValue
  | bps : List (Nat × String) → ThemeValue
deriving DecidableEq

/-- Failures of the component: the explicit undefined-theme error thrown
by applyTheme, and the type error raised when an empty breakpoint map
makes the base value lookup yield undefined. -/
inductive CssError where
  | themeNotDefined : String → CssError
  | typeError : String → CssError
deriving DecidableEq

/-- The process-wide registry state: the variable map keyed by the
custom property name, the theme table, the currently active theme, the
accumulated text chunks of the shared style container, and whether a
document context exists. -/
structure RegistryState where
  vars : List (String × String)
  themes : List (String × List (String × ThemeValue))
  currentTheme : Option String
  styleChunks : List String
  hasDocument : Bool
deriving DecidableEq

/-- Fresh registry state, as at process start. -/
def RegistryState.init (hasDoc : Bool) : RegistryState :=
  ⟨[], [], none, [], hasDoc⟩

/-- CssVars.set: resolve embedded references against the current
variable map, store the processed value under the prefixed name, and
return the canonical reference string. -/
def CssVars.set (s : RegistryState) (name value : String) : RegistryState × String :=
  let varName := "--" ++ name
  let processedValue := processValue s.vars value
  ({ s with vars := updateAssoc s.vars varName processedValue },
   "var(" ++ varName ++ ")")

/-- CssVars.setBatch: apply set to each entry of the input mapping in
order. -/
def CssVars.setBatch (s : RegistryState) (varDefs : List (String × String)) :
    RegistryState :=
  varDefs.foldl (fun st p => (CssVars.set st p.1 p.2).1) s

/-- CssVars.defineTheme: store the definitions under the theme name,
replacing any prior definition set for that name. -/
def CssVars.defineTheme (s : RegistryState) (themeName : String)
    (varDefs : List (String × ThemeValue)) : RegistryState :=
  { s with themes := updateAssoc s.themes themeName varDefs }

/-- One generated media rule, exactly the template string of the source
with the same substitution applied to the raw breakpoint value. -/
def mediaRule (vars : List (String × String)) (name : String) (minWidth : Nat)
    (raw : String) : String :=
  "@media (min-width: " ++ toString minWidth ++ "px) \x7b :root \x7b --" ++ name
    ++ ": " ++ processValue vars raw ++ "; \x7d \x7d"

/-- CssVars.applyResponsiveVariable: sort the breakpoint widths
ascending, apply the value at the smallest width as the base value via
set, and, when a document exists, append one media rule per width to the
shared style container.  An empty map makes the base value lookup yield
no value, modelling the type error thrown by the source in that case;
the second error arm is unreachable because the smallest width is always
a key of the map. -/
def CssVars.applyResponsiveVariable (s : RegistryState) (name : String)
    (values : List (Nat × String)) : RegistryState × Option CssError :=
  let minWidthKeys := List.insertionSort (· ≤ ·) (values.map Prod.fst)
  match minWidthKeys.head? with
  | none => (s, some (CssError.typeError name))
  | some w0 =>
    match lookupAssoc values w0 with
    | none => (s, some (CssError.typeError name))
    | some baseValue =>
      let s1 := (CssVars.set s name baseValue).1
      if s1.hasDocument then
        let mediaCss := String.intercalate "\n"
          (minWidthKeys.map (fun w =>
            mediaRule s1.vars name w ((lookupAssoc values w).getD "")))
        ({ s1 with styleChunks := s1.styleChunks ++ [mediaCss] }, none)
      else (s1, none)

/-- Static entries of a theme, in definition order. -/
def staticOf (theme : List (String × ThemeValue)) : List (String × String) :=
  theme.filterMap (fun p =>
    match p.2 with
    | ThemeValue.str v => some (p.1, v)
    | ThemeValue.bps _ => none)

/-- Responsive entries of a theme, in definition order. -/
def responsiveOf (theme : List (String × ThemeValue)) :
    List (String × List (Nat × String)) :=
  theme.filterMap (fun p =>
    match p.2 with
    | ThemeValue.bps m => some (p.1, m)
    | ThemeValue.str _ => none)

/-- Apply each responsive entry in turn; an error aborts the remaining
entries, as a thrown exception does in the source. -/
def applyResponsiveList : RegistryState → List (String × List (Nat × String)) →
    RegistryState × Option CssError
  | s, [] => (s, none)
  | s, (n, m) :: rest =>
    match CssVars.applyResponsiveVariable s n m with
    | (s1, none) => applyResponsiveList s1 rest
    | (s1, some e) => (s1, some e)

/-- CssVars.applyTheme: fail on an undefined theme name without touching
the state; otherwise record the theme as current, apply the static
entries via setBatch, then apply the responsive entries. -/
def CssVars.applyTheme (s : RegistryState) (themeName : String) :
    RegistryState × Option CssError :=
  match lookupAssoc s.themes themeName with
  | none => (s, some (CssError.themeNotDefined themeName))
  | some theme =>
    let s1 := { s with currentTheme := some themeName }
    let s2 := CssVars.setBatch s1 (staticOf theme)
    applyResponsiveList s2 (responsiveOf theme)

/-- CssVars.get: read the in-memory map, falling back to the supplied
fallback and then to the native reference string. -/
def CssVars.get (s : RegistryState) (name : String) (fallback : Option String) :
    String :=
  match lookupAssoc s.vars ("--" ++ name) with
  | some v => v
  | none =>
    match fallback with
    | some f => f
    | none => "var(--" ++ name ++ ")"

/-- CssVars.getCurrentTheme. -/
def CssVars.getCurrentTheme (s : RegistryState) : Option String := s.currentTheme

/-- The public mutating operations of the component, for reasoning about
call sequences. -/
inductive Op where
  | set : String → String → Op
  | setBatch : List (String × String) → Op
  | defineTheme : String → List (String × ThemeValue) → Op
  | applyTheme : String → Op

/-- Run one operation for its state effect; a thrown error leaves the
static fields of the class as they were at the throw point. -/
def runOp (s : RegistryState) : Op → RegistryState
  | Op.set n v => (CssVars.set s n v).1
  | Op.setBatch m => CssVars.setBatch s m
  | Op.defineTheme n d => CssVars.defineTheme s n d
  | Op.applyTheme n => (CssVars.applyTheme s n).1

/-- Run a sequence of operations. -/
def runOps : RegistryState → List Op → RegistryState := List.foldl runOp

/-- A theme definition respects the documented data model invariant that
every breakpoint map has at least one entry. -/
def themeOk (d : List (String × ThemeValue)) : Bool :=
  d.all (fun p =>
    match p.2 with
    | ThemeValue.bps m => !m.isEmpty
    | ThemeValue.str _ => true)

/-- An operation respects the data model invariant. -/
def opOk : Op → Bool
  | Op.defineTheme _ d => themeOk d
  | _ => true

/-- A call sequence respects the data model invariant. -/
def opsOk (ops : List Op) : Bool := ops.all opOk

/-- Every stored theme of a state respects the data model invariant. -/
def stateOk (s : RegistryState) : Bool := s.themes.all (fun p => themeOk p.2)

/-- A call sequence never defines the given theme name. -/
def notDefines (t : String) (ops : List Op) : Bool :=
  ops.all (fun op =>
    match op with
    | Op.defineTheme n _ => !(n = t : Bool)
    | _ => true)

/-- Specification side state machine for the current theme, written from
the spec narrative: the initial state is the no-theme sentinel, a
successful applyTheme records its theme name, and nothing else changes
it.  Under the data model invariant an applyTheme call succeeds exactly
when its theme name is defined, so the machine tracks definedness. -/
def specThemeStep : (Option String × List String) → Op → (Option String × List String)
  | sp, Op.defineTheme n _ => (sp.1, n :: sp.2)
  | sp, Op.applyTheme n => (if n ∈ sp.2 then some n else sp.1, sp.2)
  | sp, Op.set _ _ => sp
  | sp, Op.setBatch _ => sp

/-- Embedded reference expression without fallback, at character level. -/
def refExprList (ref : List Char) : List Char :=
  "CssVars.get(".toList ++ '\x27' :: (ref ++ ['\x27', ')'])

/-- Embedded reference expression with fallback, at character level. -/
def refExprFbList (ref fb : List Char) : List Char :=
  "CssVars.get(".toList ++
    '\x27' :: (ref ++ '\x27' :: ',' :: ' ' :: '\x27' :: (fb ++ ['\x27', ')']))

/-- Embedded reference expression without fallback. -/
def refExpr (ref : String) : String := String.mk (refExprList ref.toList)

/-- Embedded reference expression with fallback. -/
def refExprFb (ref fb : String) : String :=
  String.mk (refExprFbList ref.toList fb.toList)

/-- Plain capture text: nonempty, made of dot characters none of which
is a quote, so that the lazy capture groups match it exactly. -/
def plainList (l : List Char) : Bool :=
  !l.isEmpty && l.all (fun c => isDotChar c && !(isQuoteChar c))

/-- Demonstration theme definition with one responsive variable, the
example of the spec. -/
def demoThemeDefs : List (String × ThemeValue) :=
  [("fs", ThemeValue.bps [(300, "1rem"), (600, "2rem")])]

/-- Fresh browser state in which the demonstration theme is defined. -/
def demoState : RegistryState :=
  CssVars.defineTheme (RegistryState.init true) "t" demoThemeDefs

/-- The media text generated by one application of the demonstration
theme. -/
def demoChunk : String :=
  "@media (min-width: 300px) \x7b :root \x7b --fs: 1rem; \x7d \x7d\n@media (min-width: 600px) \x7b :root \x7b --fs: 2rem; \x7d \x7d"

/-- A state whose variable map holds, under the key of variable a, a
value that itself contains an embedded reference expression, used to
demonstrate that replacement text is not rescanned. -/
def chainState : RegistryState :=
  ⟨[("--a", "CssVars.get(\x27b\x27, \x27x\x27)")], [], none, [], true⟩

/-- Lookup after an in-place update at the same key yields the new
value. -/
theorem lookupAssoc_updateAssoc_self {α β : Type} [DecidableEq α]
    (l : List (α × β)) (k : α) (v : β) :
    lookupAssoc (updateAssoc l k v) k = some v := by
  induction l with
  | nil => simp [updateAssoc, lookupAssoc]
  | cons p rest ih =>
    obtain ⟨k1, v1⟩ := p
    by_cases h : k1 = k
    · simp [updateAssoc, lookupAssoc, h]
    · simp [updateAssoc, lookupAssoc, h, ih]

/-- Lookup at another key is untouched by an update. -/
theorem lookupAssoc_updateAssoc_ne {α β : Type} [DecidableEq α]
    (l : List (α × β)) (k k2 : α) (v : β) (h : k ≠ k2) :
    lookupAssoc (updateAssoc l k v) k2 = lookupAssoc l k2 := by
  induction l with
  | nil => simp [updateAssoc, lookupAssoc, h]
  | cons p rest ih =>
    obtain ⟨k1, v1⟩ := p
    by_cases h1 : k1 = k
    · subst h1
      simp [updateAssoc, lookupAssoc, h]
    · simp only [updateAssoc, if_neg h1]
      by_cases h2 : k1 = k2 <;> simp [lookupAssoc, h2, ih]

/-- A lookup succeeds exactly when the key occurs among the first
components. -/
theorem lookupAssoc_isSome {α β : Type} [DecidableEq α]
    (l : List (α × β)) (k : α) :
    (lookupAssoc l k).isSome = true ↔ k ∈ l.map Prod.fst := by
  induction l with
  | nil => simp [lookupAssoc]
  | cons p rest ih =>
    obtain ⟨k1, v1⟩ := p
    by_cases h : k1 = k
    · subst h; simp [lookupAssoc]
    · simp [lookupAssoc, h, ih, Ne.symm h]

/-- A successful lookup returns a binding present in the list. -/
theorem lookupAssoc_mem {α β : Type} [DecidableEq α]
    (l : List (α × β)) (k : α) (v : β) (h : lookupAssoc l k = some v) :
    (k, v) ∈ l := by
  induction l with
  | nil => simp [lookupAssoc] at h
  | cons p rest ih =>
    obtain ⟨k1, v1⟩ := p
    by_cases h1 : k1 = k
    · subst h1
      simp only [lookupAssoc, if_pos rfl] at h
      obtain rfl := Option.some.inj h
      exact List.mem_cons_self _ _
    · simp only [lookupAssoc, if_neg h1] at h
      exact List.mem_cons_of_mem _ (ih h)

/-- Updating preserves a pointwise boolean property when the new binding
satisfies it. -/
theorem updateAssoc_all {α β : Type} [DecidableEq α]
    (l : List (α × β)) (p : α × β → Bool) (k : α) (v : β)
    (hl : l.all p = true) (hv : p (k, v) = true) :
    (updateAssoc l k v).all p = true := by
  induction l with
  | nil => simp [updateAssoc, hv]
  | cons q rest ih =>
    obtain ⟨k1, v1⟩ := q
    simp only [List.all_cons, Bool.and_eq_true] at hl
    by_cases h : k1 = k
    · simp [updateAssoc, h, hv, hl.2]
    · simp [updateAssoc, h, hl.1, ih hl.2]

/-- Dropping a literal accounts exactly for its length. -/
theorem dropLit_length : ∀ (p s r : List Char),
    dropLit p s = some r → r.length + p.length = s.length := by
  intro p
  induction p with
  | nil =>
    intro s r h
    simp only [dropLit] at h
    obtain rfl := Option.some.inj h
    simp
  | cons c cs ih =>
    intro s r h
    cases s with
    | nil => simp [dropLit] at h
    | cons d ds =>
      simp only [dropLit] at h
      split at h
      · have := ih ds r h
        simp only [List.length_cons]
        omega
      · exact absurd h (by simp)

/-- The fallback capture consumes input strictly. -/
theorem fbLoop_length : ∀ (s acc fb r : List Char),
    fbLoop acc s = some (fb, r) → r.length < s.length := by
  intro s
  induction s with
  | nil => intro acc fb r h; simp [fbLoop] at h
  | cons c rest ih =>
    intro acc fb r h
    simp only [fbLoop] at h
    split at h
    · split at h
      · rename_i q cl r2
        split at h
        · simp only [Option.some.injEq, Prod.mk.injEq] at h
          obtain ⟨-, rfl⟩ := h
          simp only [List.length_cons]
          omega
        · have := ih _ _ _ h
          simp only [List.length_cons] at this ⊢
          omega
      · have := ih _ _ _ h
        simp only [List.length_cons] at this ⊢
        omega
    · exact absurd h (by simp)

/-- The optional fallback group consumes input strictly. -/
theorem tailMatchGroup_length (s fb r : List Char)
    (h : tailMatchGroup s = some (fb, r)) : r.length < s.length := by
  cases s with
  | nil => simp [tailMatchGroup] at h
  | cons c s1 =>
    simp only [tailMatchGroup] at h
    split at h
    · split at h
      · rename_i q s3 hdw
        split at h
        · have h1 := fbLoop_length s3 [] fb r h
          have h2 : (q :: s3).length ≤ s1.length := by
            rw [← hdw]; exact (List.dropWhile_sublist _).length_le
          simp only [List.length_cons] at h1 h2 ⊢
          omega
        · exact absurd h (by simp)
      · exact absurd h (by simp)
    · exact absurd h (by simp)

/-- The pattern tail consumes input strictly. -/
theorem tailMatch_length (s : List Char) (fb : Option (List Char))
    (r : List Char) (h : tailMatch s = some (fb, r)) : r.length < s.length := by
  simp only [tailMatch] at h
  split at h
  · rename_i fb1 r1 hg
    simp only [Option.some.injEq, Prod.mk.injEq] at h
    obtain ⟨-, rfl⟩ := h
    exact tailMatchGroup_length s fb1 r1 hg
  · split at h
    · exact absurd h (by simp)
    · rename_i c r2
      split at h
      · simp only [Option.some.injEq, Prod.mk.injEq] at h
        obtain ⟨-, rfl⟩ := h
        simp
      · exact absurd h (by simp)

/-- The reference capture together with the tail consumes input
strictly. -/
theorem refLoop_length : ∀ (s acc ref : List Char) (fb : Option (List Char))
    (r : List Char), refLoop acc s = some (ref, fb, r) → r.length < s.length := by
  intro s
  induction s with
  | nil => intro acc ref fb r h; simp [refLoop] at h
  | cons c rest ih =>
    intro acc ref fb r h
    simp only [refLoop] at h
    split at h
    · split at h
      · rename_i q rest2
        split at h
        · split at h
          · rename_i fb1 r1 htm
            simp only [Option.some.injEq, Prod.mk.injEq] at h
            obtain ⟨-, -, rfl⟩ := h
            have := tailMatch_length rest2 fb1 r1 htm
            simp only [List.length_cons] at this ⊢
            omega
          · have := ih _ _ _ _ h
            simp only [List.length_cons] at this ⊢
            omega
        · have := ih _ _ _ _ h
          simp only [List.length_cons] at this ⊢
          omega
      · simp at h
    · exact absurd h (by simp)

/-- A full pattern match consumes input strictly. -/
theorem matchGetAt_length (s ref : List Char) (fb : Option (List Char))
    (r : List Char) (h : matchGetAt s = some (ref, fb, r)) :
    r.length < s.length := by
  simp only [matchGetAt] at h
  split at h
  · exact absurd h (by simp)
  · rename_i s1 hd
    have hlen := dropLit_length _ _ _ hd
    have h12 : ("CssVars.get(".toList).length = 12 := by decide
    split at h
    · exact absurd h (by simp)
    · rename_i q s2
      split at h
      · have := refLoop_length s2 [] ref fb r h
        simp only [List.length_cons, h12] at hlen this ⊢
        omega
      · exact absurd h (by simp)

/-- The scan of the empty input is empty at any fuel. -/
theorem replaceGetAux_nil (vars : List (String × String)) (n : Nat) :
    replaceGetAux vars n [] = [] := by
  cases n <;> rfl

/-- The scan result does not depend on the fuel once the fuel covers the
input length. -/
theorem replaceGetAux_fuelEq (vars : List (String × String)) :
    ∀ (n1 n2 : Nat) (s : List Char), s.length ≤ n1 → s.length ≤ n2 →
      replaceGetAux vars n1 s = replaceGetAux vars n2 s := by
  intro n1
  induction n1 with
  | zero =>
    intro n2 s h1 h2
    have hs : s = [] := List.eq_nil_of_length_eq_zero (Nat.le_zero.mp h1)
    subst hs
    simp [replaceGetAux_nil]
  | succ m ih =>
    intro n2 s h1 h2
    rcases s with _ | ⟨c, rest⟩
    · simp [replaceGetAux_nil]
    · rcases n2 with _ | k
      · simp at h2
      · simp only [replaceGetAux]
        simp only [List.length_cons] at h1 h2
        rcases hm : matchGetAt (c :: rest) with _ | ⟨ref, fb, after⟩
        · show c :: replaceGetAux vars m rest = c :: replaceGetAux vars k rest
          rw [ih k rest (by omega) (by omega)]
        · have hl := matchGetAt_length _ _ _ _ hm
          simp only [List.length_cons] at hl
          show resolveRef vars ref fb ++ replaceGetAux vars m after =
            resolveRef vars ref fb ++ replaceGetAux vars k after
          rw [ih k after (by omega) (by omega)]

/-- Single-pass structure of the scan: a match at the head contributes
its resolution verbatim, and only the input after the match is scanned
further. -/
theorem replaceGetAux_match (vars : List (String × String))
    (s ref : List Char) (fb : Option (List Char)) (after : List Char)
    (h : matchGetAt s = some (ref, fb, after)) :
    replaceGetAux vars s.length s =
      resolveRef vars ref fb ++ replaceGetAux vars after.length after := by
  rcases s with _ | ⟨c, rest⟩
  · rw [show matchGetAt [] = none from by decide] at h
    exact absurd h (by simp)
  · have hl := matchGetAt_length _ _ _ _ h
    simp only [List.length_cons] at hl
    simp only [List.length_cons, replaceGetAux]
    rw [h]
    show resolveRef vars ref fb ++ replaceGetAux vars rest.length after =
      resolveRef vars ref fb ++ replaceGetAux vars after.length after
    rw [replaceGetAux_fuelEq vars rest.length after.length after (by omega) (by omega)]

/-- A value with no embedded reference is returned unchanged by the
scan, at any fuel. -/
theorem replaceGetAux_noRef (vars : List (String × String)) :
    ∀ (s : List Char) (n : Nat), hasRefAux s = false →
      replaceGetAux vars n s = s := by
  intro s
  induction s with
  | nil => intro n h; exact replaceGetAux_nil vars n
  | cons c rest ih =>
    intro n h
    simp only [hasRefAux, Bool.or_eq_false_iff] at h
    obtain ⟨h1, h2⟩ := h
    rcases n with _ | m
    · rfl
    · simp only [replaceGetAux]
      rcases hm : matchGetAt (c :: rest) with _ | x
      · show c :: replaceGetAux vars m rest = c :: rest
        rw [ih m h2]
      · rw [hm] at h1; simp at h1

/-- A value with no embedded reference expression is stored unchanged. -/
theorem processValue_noRef (vars : List (String × String)) (v : String)
    (h : hasRef v = false) : processValue vars v = v := by
  unfold processValue
  rw [replaceGetAux_noRef vars v.toList v.toList.length h]
  rfl

/-- Dropping a literal from itself followed by anything succeeds. -/
theorem dropLit_self : ∀ (p s : List Char), dropLit p (p ++ s) = some s := by
  intro p
  induction p with
  | nil => intro s; rfl
  | cons c cs ih => intro s; simp [dropLit, ih]


/-- One backtracking step of the fallback capture when the close test
fails. -/
theorem fbLoop_step (acc : List Char) (c q cl : Char) (r : List Char)
    (hdot : isDotChar c = true)
    (hq : (isQuoteChar q && decide (cl = ')')) = false) :
    fbLoop acc (c :: q :: cl :: r) = fbLoop (acc ++ [c]) (q :: cl :: r) := by
  simp [fbLoop, hdot, hq]

/-- Successful close of the fallback capture. -/
theorem fbLoop_done (acc : List Char) (c q : Char) (r : List Char)
    (hdot : isDotChar c = true) (hq : isQuoteChar q = true) :
    fbLoop acc (c :: q :: ')' :: r) = some (acc ++ [c], r) := by
  simp [fbLoop, hdot, hq]

/-- On a plain fallback text delimited by a single quote and the closing
paren, the lazy fallback capture returns exactly that text. -/
theorem fbLoop_encode : ∀ (fb acc tail : List Char), plainList fb = true →
    fbLoop acc (fb ++ '\x27' :: ')' :: tail) = some (acc ++ fb, tail) := by
  intro fb
  induction fb with
  | nil => intro acc tail h; simp [plainList] at h
  | cons c fb1 ih =>
    intro acc tail h
    simp only [plainList, List.isEmpty_cons, Bool.not_false, Bool.true_and,
      List.all_cons, Bool.and_eq_true, Bool.not_eq_true'] at h
    obtain ⟨⟨hcdot, hcq⟩, hall⟩ := h
    cases fb1 with
    | nil =>
      have : ([c] ++ '\x27' :: ')' :: tail) = c :: '\x27' :: ')' :: tail := by simp
      rw [this, fbLoop_done acc c '\x27' tail hcdot (by decide)]
    | cons d fb2 =>
      have hplain1 : plainList (d :: fb2) = true := by
        simp only [plainList, List.isEmpty_cons, Bool.not_false, Bool.true_and]
        exact hall
      have hdq : isQuoteChar d = false := by
        simp only [List.all_cons, Bool.and_eq_true, Bool.not_eq_true'] at hall
        exact hall.1.2
      rcases hsh : fb2 ++ '\x27' :: ')' :: tail with _ | ⟨e, rs⟩
      · simp at hsh
      · have harg : (c :: d :: fb2) ++ '\x27' :: ')' :: tail = c :: d :: e :: rs := by
          simp [hsh]
        rw [harg, fbLoop_step acc c d e rs hcdot (by rw [hdq]; rfl)]
        have hback : d :: e :: rs = (d :: fb2) ++ '\x27' :: ')' :: tail := by
          simp [hsh]
        rw [hback, ih (acc ++ [c]) tail hplain1]
        simp

/-- A closing paren directly after the reference close quote matches the
tail with no fallback group. -/
theorem tailMatch_close (tail : List Char) :
    tailMatch (')' :: tail) = some (none, tail) := by
  simp [tailMatch, tailMatchGroup]

/-- A comma, one space, an opening single quote and a plain fallback
text match the tail with that fallback. -/
theorem tailMatch_fb (fb tail : List Char) (h : plainList fb = true) :
    tailMatch (',' :: ' ' :: '\x27' :: (fb ++ '\x27' :: ')' :: tail)) =
      some (some fb, tail) := by
  have hg : tailMatchGroup (',' :: ' ' :: '\x27' :: (fb ++ '\x27' :: ')' :: tail)) =
      some (fb, tail) := by
    simp only [tailMatchGroup, if_pos rfl]
    have hdw : (' ' :: '\x27' :: (fb ++ '\x27' :: ')' :: tail)).dropWhile isSpaceChar =
        '\x27' :: (fb ++ '\x27' :: ')' :: tail) := by
      simp [List.dropWhile, isSpaceChar]
    rw [hdw]
    have := fbLoop_encode fb [] tail h
    simp only [List.nil_append] at this
    simp [isQuoteChar, this]
  simp [tailMatch, hg]

/-- One backtracking step of the reference capture when the next
character is not a quote. -/
theorem refLoop_stepNotQuote (acc : List Char) (c q : Char) (rest2 : List Char)
    (hdot : isDotChar c = true) (hq : isQuoteChar q = false) :
    refLoop acc (c :: q :: rest2) = refLoop (acc ++ [c]) (q :: rest2) := by
  simp [refLoop, hdot, hq]

/-- Successful close of the reference capture when the tail matches. -/
theorem refLoop_done (acc : List Char) (c q : Char) (rest2 : List Char)
    (fb : Option (List Char)) (r : List Char) (hdot : isDotChar c = true)
    (hq : isQuoteChar q = true) (htm : tailMatch rest2 = some (fb, r)) :
    refLoop acc (c :: q :: rest2) = some (acc ++ [c], fb, r) := by
  simp [refLoop, hdot, hq, htm]

/-- On a plain reference text closed by a single quote whose tail
matches, the lazy reference capture returns exactly that text. -/
theorem refLoop_encode : ∀ (ref acc tailS : List Char)
    (fb : Option (List Char)) (r : List Char), plainList ref = true →
    tailMatch tailS = some (fb, r) →
    refLoop acc (ref ++ '\x27' :: tailS) = some (acc ++ ref, fb, r) := by
  intro ref
  induction ref with
  | nil => intro acc tailS fb r h htm; simp [plainList] at h
  | cons c ref1 ih =>
    intro acc tailS fb r h htm
    simp only [plainList, List.isEmpty_cons, Bool.not_false, Bool.true_and,
      List.all_cons, Bool.and_eq_true, Bool.not_eq_true'] at h
    obtain ⟨⟨hcdot, hcq⟩, hall⟩ := h
    cases ref1 with
    | nil =>
      have harg : ([c] ++ '\x27' :: tailS) = c :: '\x27' :: tailS := by simp
      rw [harg, refLoop_done acc c '\x27' tailS fb r hcdot (by decide) htm]
    | cons d ref2 =>
      have hplain1 : plainList (d :: ref2) = true := by
        simp only [plainList, List.isEmpty_cons, Bool.not_false, Bool.true_and]
        exact hall
      have hdq : isQuoteChar d = false := by
        simp only [List.all_cons, Bool.and_eq_true, Bool.not_eq_true'] at hall
        exact hall.1.2
      have harg : (c :: d :: ref2) ++ '\x27' :: tailS =
          c :: d :: (ref2 ++ '\x27' :: tailS) := by simp
      rw [harg, refLoop_stepNotQuote acc c d (ref2 ++ '\x27' :: tailS) hcdot hdq]
      have hback : d :: (ref2 ++ '\x27' :: tailS) = (d :: ref2) ++ '\x27' :: tailS := by
        simp
      rw [hback, ih (acc ++ [c]) tailS fb r hplain1 htm]
      simp

/-- The pattern matches a plain no-fallback reference expression exactly,
leaving any trailing input untouched. -/
theorem matchGetAt_refExpr (ref tail : List Char) (h : plainList ref = true) :
    matchGetAt (refExprList ref ++ tail) = some (ref, none, tail) := by
  have hshape : refExprList ref ++ tail =
      "CssVars.get(".toList ++ ('\x27' :: (ref ++ '\x27' :: ')' :: tail)) := by
    simp [refExprList]
  have hd : dropLit "CssVars.get(".toList (refExprList ref ++ tail) =
      some ('\x27' :: (ref ++ '\x27' :: ')' :: tail)) := by
    rw [hshape]; exact dropLit_self _ _
  have hr : refLoop [] (ref ++ '\x27' :: ')' :: tail) = some (ref, none, tail) := by
    have := refLoop_encode ref [] (')' :: tail) none tail h (tailMatch_close tail)
    simpa using this
  unfold matchGetAt
  rw [hd]
  exact hr

/-- The pattern matches a plain reference expression with a plain
fallback exactly, leaving any trailing input untouched. -/
theorem matchGetAt_refExprFb (ref fb tail : List Char)
    (h1 : plainList ref = true) (h2 : plainList fb = true) :
    matchGetAt (refExprFbList ref fb ++ tail) = some (ref, some fb, tail) := by
  have hshape : refExprFbList ref fb ++ tail =
      "CssVars.get(".toList ++
        ('\x27' :: (ref ++ '\x27' :: ',' :: ' ' :: '\x27' :: (fb ++ '\x27' :: ')' :: tail))) := by
    simp [refExprFbList]
  have hd : dropLit "CssVars.get(".toList (refExprFbList ref fb ++ tail) =
      some ('\x27' :: (ref ++ '\x27' :: ',' :: ' ' :: '\x27' :: (fb ++ '\x27' :: ')' :: tail))) := by
    rw [hshape]; exact dropLit_self _ _
  have htm := tailMatch_fb fb tail h2
  have hr : refLoop [] (ref ++ '\x27' :: ',' :: ' ' :: '\x27' :: (fb ++ '\x27' :: ')' :: tail)) =
      some (ref, some fb, tail) := by
    have := refLoop_encode ref [] (',' :: ' ' :: '\x27' :: (fb ++ '\x27' :: ')' :: tail))
      (some fb) tail h1 htm
    simpa using this
  unfold matchGetAt
  rw [hd]
  exact hr

/-- Setting a value that is exactly one no-fallback reference expression
stores the three-way resolution of that reference. -/
theorem processValue_refExpr (vars : List (String × String)) (ref : String)
    (h : plainList ref.toList = true) :
    processValue vars (refExpr ref) = String.mk (resolveRef vars ref.toList none) := by
  unfold processValue refExpr
  have hm : matchGetAt (refExprList ref.toList) = some (ref.toList, none, []) := by
    have := matchGetAt_refExpr ref.toList [] h
    simpa using this
  have hlist : (String.mk (refExprList ref.toList)).toList = refExprList ref.toList := rfl
  rw [hlist, replaceGetAux_match vars _ _ _ _ hm, replaceGetAux_nil, List.append_nil]

/-- Setting a value that is exactly one reference expression with
fallback stores the three-way resolution of that reference. -/
theorem processValue_refExprFb (vars : List (String × String)) (ref fb : String)
    (h1 : plainList ref.toList = true) (h2 : plainList fb.toList = true) :
    processValue vars (refExprFb ref fb) =
      String.mk (resolveRef vars ref.toList (some fb.toList)) := by
  unfold processValue refExprFb
  have hm : matchGetAt (refExprFbList ref.toList fb.toList) =
      some (ref.toList, some fb.toList, []) := by
    have := matchGetAt_refExprFb ref.toList fb.toList [] h1 h2
    simpa using this
  have hlist : (String.mk (refExprFbList ref.toList fb.toList)).toList =
      refExprFbList ref.toList fb.toList := rfl
  rw [hlist, replaceGetAux_match vars _ _ _ _ hm, replaceGetAux_nil, List.append_nil]

/-- The set operation only rewrites the variable map. -/
theorem set_frame (s : RegistryState) (n v : String) :
    (CssVars.set s n v).1 =
      { s with vars := updateAssoc s.vars ("--" ++ n) (processValue s.vars v) } := rfl

/-- The batch operation only rewrites the variable map. -/
theorem setBatch_frame : ∀ (m : List (String × String)) (s : RegistryState),
    ∃ vs, CssVars.setBatch s m = { s with vars := vs } := by
  intro m
  induction m with
  | nil => intro s; exact ⟨s.vars, rfl⟩
  | cons p rest ih =>
    intro s
    obtain ⟨vs, hvs⟩ := ih (CssVars.set s p.1 p.2).1
    refine ⟨vs, ?_⟩
    have h1 : CssVars.setBatch s (p :: rest) =
        CssVars.setBatch (CssVars.set s p.1 p.2).1 rest := rfl
    rw [h1, hvs, set_frame]

/-- Responsive application of one variable only rewrites the variable
map and appends style chunks. -/
theorem applyResponsiveVariable_frame (s : RegistryState) (n : String)
    (m : List (Nat × String)) :
    ∃ vs extra, (CssVars.applyResponsiveVariable s n m).1 =
      { s with vars := vs, styleChunks := s.styleChunks ++ extra } := by
  simp only [CssVars.applyResponsiveVariable]
  split
  · exact ⟨s.vars, [], by simp⟩
  · rename_i w0 hw
    split
    · exact ⟨s.vars, [], by simp⟩
    · rename_i baseValue hb
      split
      · exact ⟨(CssVars.set s n baseValue).1.vars,
          [String.intercalate "\n"
            ((List.insertionSort (· ≤ ·) (m.map Prod.fst)).map (fun w =>
              mediaRule (CssVars.set s n baseValue).1.vars n w
                ((lookupAssoc m w).getD "")))], rfl⟩
      · exact ⟨(CssVars.set s n baseValue).1.vars, [], by simp [set_frame]⟩

/-- Responsive application of a list of variables only rewrites the
variable map and appends style chunks. -/
theorem applyResponsiveList_frame : ∀ (l : List (String × List (Nat × String)))
    (s : RegistryState), ∃ vs extra, (applyResponsiveList s l).1 =
      { s with vars := vs, styleChunks := s.styleChunks ++ extra } := by
  intro l
  induction l with
  | nil => intro s; exact ⟨s.vars, [], by simp [applyResponsiveList]⟩
  | cons p rest ih =>
    intro s
    obtain ⟨n, m⟩ := p
    obtain ⟨vs1, extra1, h1⟩ := applyResponsiveVariable_frame s n m
    rcases he : CssVars.applyResponsiveVariable s n m with ⟨s1, err⟩
    have hs1 : s1 = { s with vars := vs1, styleChunks := s.styleChunks ++ extra1 } := by
      rw [← h1, he]
    cases err with
    | none =>
      obtain ⟨vs2, extra2, h2⟩ := ih s1
      refine ⟨vs2, extra1 ++ extra2, ?_⟩
      have : applyResponsiveList s ((n, m) :: rest) = applyResponsiveList s1 rest := by
        simp [applyResponsiveList, he]
      rw [this, h2, hs1]
      simp
    | some e =>
      refine ⟨vs1, extra1, ?_⟩
      have : applyResponsiveList s ((n, m) :: rest) = (s1, some e) := by
        simp [applyResponsiveList, he]
      rw [this, hs1]

/-- Applying a theme rewrites only the variable map, the style chunks
and the current theme; in particular the theme table and the document
flag are untouched. -/
theorem applyTheme_frame (s : RegistryState) (t : String) :
    ∃ vs extra ct, (CssVars.applyTheme s t).1 =
      { s with vars := vs, styleChunks := s.styleChunks ++ extra,
               currentTheme := ct } := by
  unfold CssVars.applyTheme
  rcases hl : lookupAssoc s.themes t with _ | theme
  · exact ⟨s.vars, [], s.currentTheme, by simp⟩
  · obtain ⟨vs1, h1⟩ := setBatch_frame (staticOf theme)
      { s with currentTheme := some t }
    obtain ⟨vs2, extra2, h2⟩ := applyResponsiveList_frame (responsiveOf theme)
      (CssVars.setBatch { s with currentTheme := some t } (staticOf theme))
    refine ⟨vs2, extra2, some t, ?_⟩
    simp only
    rw [h2, h1]

/-- The theme table is untouched by a batch of sets. -/
theorem setBatch_themes (s : RegistryState) (m : List (String × String)) :
    (CssVars.setBatch s m).themes = s.themes := by
  obtain ⟨vs, h⟩ := setBatch_frame m s
  rw [h]

/-- The theme table is untouched by theme application. -/
theorem applyTheme_themes (s : RegistryState) (t : String) :
    (CssVars.applyTheme s t).1.themes = s.themes := by
  obtain ⟨vs, extra, ct, h⟩ := applyTheme_frame s t
  rw [h]

/-- The document flag is untouched by theme application. -/
theorem applyTheme_hasDocument (s : RegistryState) (t : String) :
    (CssVars.applyTheme s t).1.hasDocument = s.hasDocument := by
  obtain ⟨vs, extra, ct, h⟩ := applyTheme_frame s t
  rw [h]

/-- Applying an undefined theme fails with the lookup error and returns
the state unchanged. -/
theorem applyTheme_undefined (s : RegistryState) (t : String)
    (h : lookupAssoc s.themes t = none) :
    CssVars.applyTheme s t = (s, some (CssError.themeNotDefined t)) := by
  simp [CssVars.applyTheme, h]

/-- A key drawn from the key list can be looked up. -/
theorem lookupAssoc_of_mem_keys {α β : Type} [DecidableEq α]
    (l : List (α × β)) (k : α) (h : k ∈ l.map Prod.fst) :
    ∃ v, lookupAssoc l k = some v := by
  have := (lookupAssoc_isSome l k).mpr h
  exact Option.isSome_iff_exists.mp this

/-- Responsive application of a nonempty breakpoint map never errors. -/
theorem applyResponsiveVariable_ok (s : RegistryState) (n : String)
    (m : List (Nat × String)) (h : m ≠ []) :
    (CssVars.applyResponsiveVariable s n m).2 = none := by
  simp only [CssVars.applyResponsiveVariable]
  split
  · rename_i hw
    rw [List.head?_eq_none_iff] at hw
    have hlen := List.length_insertionSort (· ≤ ·) (m.map Prod.fst)
    rw [hw] at hlen
    simp only [List.length_nil, List.length_map] at hlen
    exact absurd (List.eq_nil_of_length_eq_zero hlen.symm) h
  · rename_i w0 hw
    split
    · rename_i hb
      have hmem : w0 ∈ m.map Prod.fst := by
        have hcons := List.head?_eq_some_iff.mp hw
        obtain ⟨tl, htl⟩ := hcons
        have : w0 ∈ List.insertionSort (· ≤ ·) (m.map Prod.fst) := by
          rw [htl]; exact List.mem_cons_self _ _
        exact (List.mem_insertionSort (· ≤ ·)).mp this
      obtain ⟨v, hv⟩ := lookupAssoc_of_mem_keys m w0 hmem
      rw [hv] at hb
      exact absurd hb (by simp)
    · split <;> rfl

/-- With a document present, responsive application of a nonempty map
appends exactly one chunk of generated media text. -/
theorem applyResponsiveVariable_appends (s : RegistryState) (n : String)
    (m : List (Nat × String)) (hdoc : s.hasDocument = true) (h : m ≠ []) :
    ∃ c, (CssVars.applyResponsiveVariable s n m).1.styleChunks =
      s.styleChunks ++ [c] := by
  simp only [CssVars.applyResponsiveVariable]
  split
  · rename_i hw
    rw [List.head?_eq_none_iff] at hw
    have hlen := List.length_insertionSort (· ≤ ·) (m.map Prod.fst)
    rw [hw] at hlen
    simp only [List.length_nil, List.length_map] at hlen
    exact absurd (List.eq_nil_of_length_eq_zero hlen.symm) h
  · rename_i w0 hw
    split
    · rename_i hb
      have hmem : w0 ∈ m.map Prod.fst := by
        have hcons := List.head?_eq_some_iff.mp hw
        obtain ⟨tl, htl⟩ := hcons
        have : w0 ∈ List.insertionSort (· ≤ ·) (m.map Prod.fst) := by
          rw [htl]; exact List.mem_cons_self _ _
        exact (List.mem_insertionSort (· ≤ ·)).mp this
      obtain ⟨v, hv⟩ := lookupAssoc_of_mem_keys m w0 hmem
      rw [hv] at hb
      exact absurd hb (by simp)
    · rename_i baseValue hb
      split
      · rename_i hdoc2
        exact ⟨_, rfl⟩
      · rename_i hdoc2
        rw [set_frame] at hdoc2
        simp only at hdoc2
        exact absurd hdoc hdoc2

/-- Responsive application of a list of nonempty maps never errors. -/
theorem applyResponsiveList_ok : ∀ (l : List (String × List (Nat × String)))
    (s : RegistryState), (∀ p ∈ l, p.2 ≠ ([] : List (Nat × String))) →
    (applyResponsiveList s l).2 = none := by
  intro l
  induction l with
  | nil => intro s _; rfl
  | cons p rest ih =>
    intro s hne
    obtain ⟨n, m⟩ := p
    have hm : m ≠ [] := hne (n, m) (List.mem_cons_self _ _)
    have hok := applyResponsiveVariable_ok s n m hm
    rcases he : CssVars.applyResponsiveVariable s n m with ⟨s1, err⟩
    rw [he] at hok
    simp only at hok
    subst hok
    have hstep : applyResponsiveList s ((n, m) :: rest) = applyResponsiveList s1 rest := by
      simp [applyResponsiveList, he]
    rw [hstep]
    exact ih s1 (fun q hq => hne q (List.mem_cons_of_mem _ hq))

/-- A responsive entry of a theme definition is a breakpoint entry of
the theme. -/
theorem responsiveOf_mem (theme : List (String × ThemeValue)) (n : String)
    (m : List (Nat × String)) (h : (n, m) ∈ responsiveOf theme) :
    (n, ThemeValue.bps m) ∈ theme := by
  unfold responsiveOf at h
  rw [List.mem_filterMap] at h
  obtain ⟨⟨n1, tv⟩, hmem, heq⟩ := h
  cases tv with
  | str v => simp at heq
  | bps mm =>
    simp only [Option.some.injEq, Prod.mk.injEq] at heq
    obtain ⟨rfl, rfl⟩ := heq
    exact hmem

/-- Under the data model invariant a breakpoint entry of a theme is
nonempty. -/
theorem themeOk_mem (theme : List (String × ThemeValue)) (n : String)
    (m : List (Nat × String)) (h : themeOk theme = true)
    (hm : (n, ThemeValue.bps m) ∈ theme) : m ≠ [] := by
  unfold themeOk at h
  rw [List.all_eq_true] at h
  have := h _ hm
  simp only [Bool.not_eq_true'] at this
  intro hnil
  subst hnil
  simp at this

/-- Applying a defined theme that satisfies the data model invariant
never errors. -/
theorem applyThemeOkAux (s : RegistryState) (t : String)
    (theme : List (String × ThemeValue))
    (hl : lookupAssoc s.themes t = some theme)
    (hok : themeOk theme = true) : (CssVars.applyTheme s t).2 = none := by
  simp only [CssVars.applyTheme, hl]
  exact applyResponsiveList_ok (responsiveOf theme) _
    (fun p hp => themeOk_mem theme p.1 p.2 hok (responsiveOf_mem theme p.1 p.2 hp))

/-- Applying a defined theme records it as the current theme. -/
theorem applyTheme_current (s : RegistryState) (t : String)
    (theme : List (String × ThemeValue))
    (hl : lookupAssoc s.themes t = some theme) :
    (CssVars.applyTheme s t).1.currentTheme = some t := by
  simp only [CssVars.applyTheme, hl]
  obtain ⟨vs1, h1⟩ := setBatch_frame (staticOf theme) { s with currentTheme := some t }
  obtain ⟨vs2, extra2, h2⟩ := applyResponsiveList_frame (responsiveOf theme)
    (CssVars.setBatch { s with currentTheme := some t } (staticOf theme))
  rw [h2, h1]

/-- With a document present, responsive application of a list headed by
a nonempty map strictly extends the style container. -/
theorem applyResponsiveList_appends (s : RegistryState) (n : String)
    (m : List (Nat × String)) (rest : List (String × List (Nat × String)))
    (hdoc : s.hasDocument = true) (hm : m ≠ []) :
    ∃ e, e ≠ ([] : List String) ∧
      (applyResponsiveList s ((n, m) :: rest)).1.styleChunks =
        s.styleChunks ++ e := by
  obtain ⟨c, hc⟩ := applyResponsiveVariable_appends s n m hdoc hm
  have hok := applyResponsiveVariable_ok s n m hm
  rcases he : CssVars.applyResponsiveVariable s n m with ⟨s1, err⟩
  rw [he] at hok hc
  simp only at hok hc
  subst hok
  obtain ⟨vs2, extra2, h2⟩ := applyResponsiveList_frame rest s1
  refine ⟨c :: extra2, by simp, ?_⟩
  have hstep : applyResponsiveList s ((n, m) :: rest) = applyResponsiveList s1 rest := by
    simp [applyResponsiveList, he]
  rw [hstep, h2]
  show s1.styleChunks ++ extra2 = s.styleChunks ++ (c :: extra2)
  rw [hc]
  simp

/-- Applying a defined, invariant-respecting theme with at least one
responsive entry strictly extends the style container when a document is
present. -/
theorem applyTheme_chunksGrow (s : RegistryState) (t : String)
    (theme : List (String × ThemeValue))
    (hl : lookupAssoc s.themes t = some theme) (hdoc : s.hasDocument = true)
    (hne : responsiveOf theme ≠ []) (hok : themeOk theme = true) :
    ∃ e, e ≠ ([] : List String) ∧
      (CssVars.applyTheme s t).1.styleChunks = s.styleChunks ++ e := by
  simp only [CssVars.applyTheme, hl]
  obtain ⟨vs1, h1⟩ := setBatch_frame (staticOf theme) { s with currentTheme := some t }
  rcases hro : responsiveOf theme with _ | ⟨⟨n, m⟩, rest⟩
  · exact absurd hro hne
  · have hm : m ≠ [] := themeOk_mem theme n m hok
      (responsiveOf_mem theme n m (by rw [hro]; exact List.mem_cons_self _ _))
    have hdoc2 : (CssVars.setBatch { s with currentTheme := some t }
        (staticOf theme)).hasDocument = true := by
      rw [h1]; exact hdoc
    obtain ⟨e, hene, he⟩ := applyResponsiveList_appends
      (CssVars.setBatch { s with currentTheme := some t } (staticOf theme))
      n m rest hdoc2 hm
    refine ⟨e, hene, ?_⟩
    rw [he, h1]

/-- Every operation only appends to the style container. -/
theorem runOp_chunksMono (s : RegistryState) (op : Op) :
    ∃ extra, (runOp s op).styleChunks = s.styleChunks ++ extra := by
  cases op with
  | set n v => exact ⟨[], by simp [runOp, set_frame]⟩
  | setBatch m =>
    obtain ⟨vs, h⟩ := setBatch_frame m s
    exact ⟨[], by simp [runOp, h]⟩
  | defineTheme n d => exact ⟨[], by simp [runOp, CssVars.defineTheme]⟩
  | applyTheme n =>
    obtain ⟨vs, extra, ct, h⟩ := applyTheme_frame s n
    exact ⟨extra, by simp [runOp, h]⟩

/-- A call sequence that never defines a theme name leaves that name
undefined in the theme table. -/
theorem notDefines_lookup : ∀ (ops : List Op) (s : RegistryState) (t : String),
    notDefines t ops = true → lookupAssoc s.themes t = none →
    lookupAssoc (runOps s ops).themes t = none := by
  intro ops
  induction ops with
  | nil => intro s t _ h; exact h
  | cons op rest ih =>
    intro s t hnd h
    simp only [notDefines, List.all_cons, Bool.and_eq_true] at hnd
    obtain ⟨hop, hrest⟩ := hnd
    have hstep : lookupAssoc (runOp s op).themes t = none := by
      cases op with
      | set n v => exact h
      | setBatch m =>
        show lookupAssoc (CssVars.setBatch s m).themes t = none
        rw [setBatch_themes]
        exact h
      | defineTheme n d =>
        have hne : n ≠ t := by
          simp only [Bool.not_eq_true'] at hop
          exact of_decide_eq_false hop
        show lookupAssoc (updateAssoc s.themes n d) t = none
        rw [lookupAssoc_updateAssoc_ne s.themes n t d hne]
        exact h
      | applyTheme n =>
        show lookupAssoc ((CssVars.applyTheme s n).1).themes t = none
        rw [applyTheme_themes]
        exact h
    have hrec := ih (runOp s op) t
      (by simp only [notDefines]; exact hrest) hstep
    exact hrec

/-- One operation preserves the data model invariant and advances the
code state in lockstep with the specification side machine for the
current theme. -/
theorem runOp_invariant (s : RegistryState) (sp : Option String × List String)
    (op : Op) (hop : opOk op = true) (h1 : stateOk s = true)
    (h2 : s.currentTheme = sp.1)
    (h3 : ∀ u : String, (lookupAssoc s.themes u).isSome = true ↔ u ∈ sp.2) :
    stateOk (runOp s op) = true ∧
    (runOp s op).currentTheme = (specThemeStep sp op).1 ∧
    (∀ u : String, (lookupAssoc (runOp s op).themes u).isSome = true ↔
      u ∈ (specThemeStep sp op).2) := by
  cases op with
  | set n v => exact ⟨h1, h2, h3⟩
  | setBatch m =>
    obtain ⟨vs, h⟩ := setBatch_frame m s
    refine ⟨?_, ?_, ?_⟩
    · show stateOk (CssVars.setBatch s m) = true
      unfold stateOk
      rw [h]
      exact h1
    · show (CssVars.setBatch s m).currentTheme = sp.1
      rw [h]
      exact h2
    · intro u
      show (lookupAssoc (CssVars.setBatch s m).themes u).isSome = true ↔ u ∈ sp.2
      rw [h]
      exact h3 u
  | defineTheme n d =>
    have hd : themeOk d = true := hop
    refine ⟨?_, h2, ?_⟩
    · exact updateAssoc_all s.themes (fun p => themeOk p.2) n d h1 hd
    · intro u
      show (lookupAssoc (updateAssoc s.themes n d) u).isSome = true ↔ u ∈ n :: sp.2
      by_cases hu : n = u
      · subst hu
        rw [lookupAssoc_updateAssoc_self]
        simp
      · rw [lookupAssoc_updateAssoc_ne s.themes n u d hu]
        rw [h3 u]
        simp [List.mem_cons, Ne.symm hu]
  | applyTheme n =>
    rcases hl : lookupAssoc s.themes n with _ | theme
    · have happ := applyTheme_undefined s n hl
      have hnmem : n ∉ sp.2 := by
        rw [← h3 n, hl]
        simp
      refine ⟨?_, ?_, ?_⟩
      · show stateOk ((CssVars.applyTheme s n).1) = true
        rw [happ]
        exact h1
      · show ((CssVars.applyTheme s n).1).currentTheme =
          (if n ∈ sp.2 then some n else sp.1)
        rw [happ, if_neg hnmem]
        exact h2
      · intro u
        show (lookupAssoc ((CssVars.applyTheme s n).1).themes u).isSome = true ↔
          u ∈ sp.2
        rw [happ]
        exact h3 u
    · have hmem : n ∈ sp.2 := by
        rw [← h3 n, hl]
        rfl
      refine ⟨?_, ?_, ?_⟩
      · show stateOk ((CssVars.applyTheme s n).1) = true
        unfold stateOk
        rw [applyTheme_themes]
        exact h1
      · show ((CssVars.applyTheme s n).1).currentTheme =
          (if n ∈ sp.2 then some n else sp.1)
        rw [if_pos hmem]
        exact applyTheme_current s n theme hl
      · intro u
        show (lookupAssoc ((CssVars.applyTheme s n).1).themes u).isSome = true ↔
          u ∈ sp.2
        rw [applyTheme_themes]
        exact h3 u

/-- A call sequence that respects the data model invariant drives the
current theme of the registry exactly as the specification side machine
prescribes. -/
theorem runOps_invariant : ∀ (ops : List Op) (s : RegistryState)
    (sp : Option String × List String), opsOk ops = true →
    stateOk s = true → s.currentTheme = sp.1 →
    (∀ u : String, (lookupAssoc s.themes u).isSome = true ↔ u ∈ sp.2) →
    (runOps s ops).currentTheme = (List.foldl specThemeStep sp ops).1 := by
  intro ops
  induction ops with
  | nil => intro s sp _ _ h2 _; exact h2
  | cons op rest ih =>
    intro s sp hops h1 h2 h3
    simp only [opsOk, List.all_cons, Bool.and_eq_true] at hops
    obtain ⟨hop, hrest⟩ := hops
    obtain ⟨g1, g2, g3⟩ := runOp_invariant s sp op hop h1 h2 h3
    exact ih (runOp s op) (specThemeStep sp op) hrest g1 g2 g3

/-- Reading a variable right after setting it yields the processed
value. -/
theorem set_get (s : RegistryState) (name value : String) :
    CssVars.get (CssVars.set s name value).1 name none =
      processValue s.vars value := by
  simp only [CssVars.set, CssVars.get]
  rw [lookupAssoc_updateAssoc_self]

/-- Claim C1, counterexample: the claim states that the set call itself
returns the substituted fallback text, but set always returns the
canonical reference string of the variable being set, here var(--accent)
and not #000. -/
theorem claim1_counterexample :
    (CssVars.set (RegistryState.init true) "accent"
      "CssVars.get(\x27base\x27, \x27#000\x27)").2 = "var(--accent)" ∧
    ("var(--accent)" : String) ≠ "#000" :=
  ⟨by decide, by decide⟩

/-- Claim C1, amended: embedded reference expressions in a value passed
to set are resolved eagerly at set time against the current variable
map: a registered reference substitutes its stored value, an
unregistered reference with fallback substitutes the fallback, and an
unregistered reference without fallback substitutes the native
reference string; the substituted text is what is stored (and what get
then returns), while the set call itself returns the canonical
reference string; multiple references in one value are resolved left to
right and independently.  In particular setting accent to a reference
to base with fallback #000 stores #000 while base is undefined, and
stores #111 after set("base", "#111"). -/
theorem claim1_resolution :
    (∀ (s : RegistryState) (name ref fb v : String),
      plainList ref.toList = true → plainList fb.toList = true →
      lookupAssoc s.vars ("--" ++ ref) = some v →
      CssVars.get (CssVars.set s name (refExprFb ref fb)).1 name none = v) ∧
    (∀ (s : RegistryState) (name ref fb : String),
      plainList ref.toList = true → plainList fb.toList = true →
      lookupAssoc s.vars ("--" ++ ref) = none →
      CssVars.get (CssVars.set s name (refExprFb ref fb)).1 name none = fb) ∧
    (∀ (s : RegistryState) (name ref v : String),
      plainList ref.toList = true →
      lookupAssoc s.vars ("--" ++ ref) = some v →
      CssVars.get (CssVars.set s name (refExpr ref)).1 name none = v) ∧
    (∀ (s : RegistryState) (name ref : String),
      plainList ref.toList = true →
      lookupAssoc s.vars ("--" ++ ref) = none →
      CssVars.get (CssVars.set s name (refExpr ref)).1 name none =
        "var(--" ++ ref ++ ")") ∧
    (CssVars.get (CssVars.set (RegistryState.init true) "accent"
      "CssVars.get(\x27base\x27, \x27#000\x27)").1 "accent" none = "#000") ∧
    ((CssVars.set (RegistryState.init true) "accent"
      "CssVars.get(\x27base\x27, \x27#000\x27)").2 = "var(--accent)") ∧
    (CssVars.get (CssVars.set
      (CssVars.set (RegistryState.init true) "base" "#111").1 "accent"
      "CssVars.get(\x27base\x27, \x27#000\x27)").1 "accent" none = "#111") ∧
    (processValue [("--a", "A")]
      "x CssVars.get(\x27a\x27, \x271\x27) y CssVars.get(\x27b\x27, \x272\x27) z" =
      "x A y 2 z") := by
  refine ⟨?_, ?_, ?_, ?_, by decide, by decide, by decide, by decide⟩
  · intro s name ref fb v hr hf hlk
    rw [set_get, processValue_refExprFb s.vars ref fb hr hf]
    unfold resolveRef
    rw [show ("--" ++ String.mk ref.toList) = "--" ++ ref from rfl, hlk]
    rfl
  · intro s name ref fb hr hf hlk
    rw [set_get, processValue_refExprFb s.vars ref fb hr hf]
    unfold resolveRef
    rw [show ("--" ++ String.mk ref.toList) = "--" ++ ref from rfl, hlk]
    rfl
  · intro s name ref v hr hlk
    rw [set_get, processValue_refExpr s.vars ref hr]
    unfold resolveRef
    rw [show ("--" ++ String.mk ref.toList) = "--" ++ ref from rfl, hlk]
    rfl
  · intro s name ref hr hlk
    rw [set_get, processValue_refExpr s.vars ref hr]
    unfold resolveRef
    rw [show ("--" ++ String.mk ref.toList) = "--" ++ ref from rfl, hlk]
    show String.mk ("var(--" ++ String.mk ref.toList ++ ")").toList =
      "var(--" ++ ref ++ ")"
    rfl

/-- Claim C1, witness: the amended resolution rules at concrete inputs. -/
theorem claim1_witness :
    plainList ("base".toList) = true ∧
    lookupAssoc ([("--base", "#111")] : List (String × String)) ("--" ++ "base") =
      some "#111" ∧
    CssVars.get (CssVars.set
      (RegistryState.mk [("--base", "#111")] [] none [] true) "accent"
      (refExprFb "base" "#000")).1 "accent" none = "#111" :=
  ⟨by decide, by decide,
    claim1_resolution.1 (RegistryState.mk [("--base", "#111")] [] none [] true)
      "accent" "base" "#000" "#111" (by decide) (by decide) (by decide)⟩

/-- Claim C2: after any call sequence that never defines theme name t,
applying t fails with the undefined-theme error and returns the whole
registry state unchanged, so in particular the current theme keeps its
value. -/
theorem claim2_applyTheme_undefined (hd : Bool) (ops : List Op) (t : String)
    (h : notDefines t ops = true) :
    CssVars.applyTheme (runOps (RegistryState.init hd) ops) t =
      (runOps (RegistryState.init hd) ops, some (CssError.themeNotDefined t)) := by
  apply applyTheme_undefined
  exact notDefines_lookup ops (RegistryState.init hd) t h rfl

/-- Claim C2, witness: a concrete call sequence that never defines t. -/
theorem claim2_witness :
    notDefines "t" [Op.defineTheme "other" [("x", ThemeValue.str "1")],
      Op.set "x" "1", Op.applyTheme "other"] = true ∧
    CssVars.applyTheme (runOps (RegistryState.init true)
      [Op.defineTheme "other" [("x", ThemeValue.str "1")],
        Op.set "x" "1", Op.applyTheme "other"]) "t" =
      (runOps (RegistryState.init true)
        [Op.defineTheme "other" [("x", ThemeValue.str "1")],
          Op.set "x" "1", Op.applyTheme "other"],
       some (CssError.themeNotDefined "t")) :=
  ⟨by decide, claim2_applyTheme_undefined true
    [Op.defineTheme "other" [("x", ThemeValue.str "1")],
      Op.set "x" "1", Op.applyTheme "other"] "t" (by decide)⟩

/-- Claim C4: setting a value that contains no embedded reference
expression and reading it back returns exactly that value. -/
theorem claim4_set_get_roundtrip (s : RegistryState) (name v : String)
    (h : hasRef v = false) :
    CssVars.get (CssVars.set s name v).1 name none = v := by
  rw [set_get, processValue_noRef s.vars v h]

/-- Claim C4, witness: the round trip at a concrete reference-free
value. -/
theorem claim4_witness :
    hasRef "10px solid red" = false ∧
    CssVars.get (CssVars.set (RegistryState.init true) "border"
      "10px solid red").1 "border" none = "10px solid red" :=
  ⟨by decide, claim4_set_get_roundtrip (RegistryState.init true) "border"
    "10px solid red" (by decide)⟩

/-- Claim C3: with a document present, responsive application of a
nonempty breakpoint map sorts the widths ascending, applies the value at
the smallest width as the unconditional base value via set (so it is
stored in the in-memory map after reference resolution), and appends
exactly one chunk holding one generated media rule per breakpoint in
ascending width order, including a redundant rule at the smallest width;
for the breakpoint map 300 to 1rem and 600 to 2rem the immediate value
becomes 1rem and the two media rules at 300 and 600 assign the
corresponding values. -/
theorem claim3_responsive :
    (∀ (s : RegistryState) (name : String) (m : List (Nat × String)),
      s.hasDocument = true → m ≠ [] →
      ∃ w0 baseValue chunk,
        (List.insertionSort (· ≤ ·) (m.map Prod.fst)).head? = some w0 ∧
        (∀ w ∈ m.map Prod.fst, w0 ≤ w) ∧
        lookupAssoc m w0 = some baseValue ∧
        List.Sorted (· ≤ ·) (List.insertionSort (· ≤ ·) (m.map Prod.fst)) ∧
        (List.insertionSort (· ≤ ·) (m.map Prod.fst)).Perm (m.map Prod.fst) ∧
        chunk = String.intercalate "\n"
          ((List.insertionSort (· ≤ ·) (m.map Prod.fst)).map (fun w =>
            mediaRule (CssVars.set s name baseValue).1.vars name w
              ((lookupAssoc m w).getD ""))) ∧
        CssVars.applyResponsiveVariable s name m =
          ({ (CssVars.set s name baseValue).1 with
              styleChunks := s.styleChunks ++ [chunk] }, none)) ∧
    CssVars.get (CssVars.applyTheme demoState "t").1 "fs" none = "1rem" ∧
    (CssVars.applyTheme demoState "t").1.styleChunks = [demoChunk] := by
  refine ⟨?_, by decide, by decide⟩
  intro s name m hdoc hne
  have hlen := List.length_insertionSort (· ≤ ·) (m.map Prod.fst)
  rcases hsAll : List.insertionSort (· ≤ ·) (m.map Prod.fst) with _ | ⟨w0, ks⟩
  · rw [hsAll] at hlen
    simp only [List.length_nil, List.length_map] at hlen
    exact absurd (List.eq_nil_of_length_eq_zero hlen.symm) hne
  · have hsorted := List.sorted_insertionSort (· ≤ ·) (m.map Prod.fst)
    have hperm := List.perm_insertionSort (· ≤ ·) (m.map Prod.fst)
    have hw0mem : w0 ∈ m.map Prod.fst := by
      have : w0 ∈ List.insertionSort (· ≤ ·) (m.map Prod.fst) := by
        rw [hsAll]; exact List.mem_cons_self _ _
      exact (List.mem_insertionSort (· ≤ ·)).mp this
    have hmin : ∀ w ∈ m.map Prod.fst, w0 ≤ w := by
      intro w hwmem
      have hwks : w ∈ w0 :: ks := by
        rw [← hsAll]; exact (List.mem_insertionSort (· ≤ ·)).mpr hwmem
      rcases List.mem_cons.mp hwks with hw | hw
      · exact hw ▸ le_refl w0
      · have hms := hsorted
        rw [hsAll] at hms
        exact (List.sorted_cons.mp hms).1 w hw
    obtain ⟨baseValue, hb⟩ := lookupAssoc_of_mem_keys m w0 hw0mem
    rw [hsAll] at hsorted hperm
    refine ⟨w0, baseValue, _, rfl, hmin, hb, hsorted, hperm, rfl, ?_⟩
    simp only [CssVars.applyResponsiveVariable, hsAll, List.head?_cons, hb,
      set_frame]
    simp only [hdoc, if_true]

/-- Claim C3, witness: responsive application at the concrete example
breakpoint map of the spec. -/
theorem claim3_witness :
    ∃ w0 baseValue chunk,
      (List.insertionSort (· ≤ ·)
        (([(300, "1rem"), (600, "2rem")] : List (Nat × String)).map Prod.fst)).head? =
          some w0 ∧
      (∀ w ∈ (([(300, "1rem"), (600, "2rem")] : List (Nat × String)).map Prod.fst),
        w0 ≤ w) ∧
      lookupAssoc ([(300, "1rem"), (600, "2rem")] : List (Nat × String)) w0 =
        some baseValue ∧
      List.Sorted (· ≤ ·) (List.insertionSort (· ≤ ·)
        (([(300, "1rem"), (600, "2rem")] : List (Nat × String)).map Prod.fst)) ∧
      (List.insertionSort (· ≤ ·)
        (([(300, "1rem"), (600, "2rem")] : List (Nat × String)).map Prod.fst)).Perm
        (([(300, "1rem"), (600, "2rem")] : List (Nat × String)).map Prod.fst) ∧
      chunk = String.intercalate "\n"
        ((List.insertionSort (· ≤ ·)
          (([(300, "1rem"), (600, "2rem")] : List (Nat × String)).map Prod.fst)).map
          (fun w =>
            mediaRule (CssVars.set (RegistryState.init true) "fs" baseValue).1.vars
              "fs" w
              ((lookupAssoc ([(300, "1rem"), (600, "2rem")] : List (Nat × String)) w).getD ""))) ∧
      CssVars.applyResponsiveVariable (RegistryState.init true) "fs"
        [(300, "1rem"), (600, "2rem")] =
        ({ (CssVars.set (RegistryState.init true) "fs" baseValue).1 with
            styleChunks := (RegistryState.init true).styleChunks ++ [chunk] }, none) :=
  claim3_responsive.1 (RegistryState.init true) "fs" [(300, "1rem"), (600, "2rem")]
    rfl (by decide)

/-- Claim C5: the style container is append-only under every operation,
and applying a defined invariant-respecting theme with a responsive
entry twice appends nonempty generated text both times, so the container
holds the generated rules twice; at the concrete example theme the
container holds the identical media text chunk twice. -/
theorem claim5_not_idempotent :
    (∀ (s : RegistryState) (op : Op),
      ∃ extra, (runOp s op).styleChunks = s.styleChunks ++ extra) ∧
    (∀ (s : RegistryState) (t : String) (theme : List (String × ThemeValue)),
      lookupAssoc s.themes t = some theme → s.hasDocument = true →
      responsiveOf theme ≠ [] → themeOk theme = true →
      ∃ e1 e2, e1 ≠ ([] : List String) ∧ e2 ≠ ([] : List String) ∧
        (CssVars.applyTheme (CssVars.applyTheme s t).1 t).1.styleChunks =
          s.styleChunks ++ e1 ++ e2) ∧
    (CssVars.applyTheme (CssVars.applyTheme demoState "t").1 "t").1.styleChunks =
      [demoChunk, demoChunk] := by
  refine ⟨runOp_chunksMono, ?_, by decide⟩
  intro s t theme hl hdoc hne hok
  obtain ⟨e1, he1ne, he1⟩ := applyTheme_chunksGrow s t theme hl hdoc hne hok
  have hl2 : lookupAssoc ((CssVars.applyTheme s t).1).themes t = some theme := by
    rw [applyTheme_themes]; exact hl
  have hdoc2 : ((CssVars.applyTheme s t).1).hasDocument = true := by
    rw [applyTheme_hasDocument]; exact hdoc
  obtain ⟨e2, he2ne, he2⟩ := applyTheme_chunksGrow ((CssVars.applyTheme s t).1) t
    theme hl2 hdoc2 hne hok
  refine ⟨e1, e2, he1ne, he2ne, ?_⟩
  rw [he2, he1, List.append_assoc]

/-- Claim C5, witness: the double application at the concrete example
theme. -/
theorem claim5_witness :
    lookupAssoc demoState.themes "t" = some demoThemeDefs ∧
    responsiveOf demoThemeDefs ≠ [] ∧ themeOk demoThemeDefs = true ∧
    ∃ e1 e2, e1 ≠ ([] : List String) ∧ e2 ≠ ([] : List String) ∧
      (CssVars.applyTheme (CssVars.applyTheme demoState "t").1 "t").1.styleChunks =
        demoState.styleChunks ++ e1 ++ e2 :=
  ⟨by decide, by decide, by decide,
    claim5_not_idempotent.2.1 demoState "t" demoThemeDefs (by decide) rfl
      (by decide) (by decide)⟩

/-- Claim C6: the current theme is the no-theme sentinel initially, and
after any invariant-respecting call sequence it equals the theme name
recorded by the specification state machine, whose only transition is a
successful theme application; failed applications of undefined themes do
not move it. -/
theorem claim6_currentTheme (hd : Bool) :
    CssVars.getCurrentTheme (RegistryState.init hd) = none ∧
    ∀ ops : List Op, opsOk ops = true →
      CssVars.getCurrentTheme (runOps (RegistryState.init hd) ops) =
        (List.foldl specThemeStep (none, []) ops).1 := by
  refine ⟨rfl, ?_⟩
  intro ops hops
  exact runOps_invariant ops (RegistryState.init hd) (none, []) hops rfl rfl
    (fun u => by simp [lookupAssoc, RegistryState.init])

/-- Claim C6, witness: a concrete sequence with a successful
application, a failed application of an undefined name, and a final
successful application. -/
theorem claim6_witness :
    opsOk [Op.defineTheme "s" [("x", ThemeValue.str "1")], Op.applyTheme "s",
      Op.applyTheme "missing",
      Op.defineTheme "t" [("fs", ThemeValue.bps [(300, "1rem")])],
      Op.applyTheme "t"] = true ∧
    CssVars.getCurrentTheme (runOps (RegistryState.init true)
      [Op.defineTheme "s" [("x", ThemeValue.str "1")], Op.applyTheme "s",
        Op.applyTheme "missing",
        Op.defineTheme "t" [("fs", ThemeValue.bps [(300, "1rem")])],
        Op.applyTheme "t"]) =
      (List.foldl specThemeStep (none, [])
        [Op.defineTheme "s" [("x", ThemeValue.str "1")], Op.applyTheme "s",
          Op.applyTheme "missing",
          Op.defineTheme "t" [("fs", ThemeValue.bps [(300, "1rem")])],
          Op.applyTheme "t"]).1 :=
  ⟨by decide, (claim6_currentTheme true).2
    [Op.defineTheme "s" [("x", ThemeValue.str "1")], Op.applyTheme "s",
      Op.applyTheme "missing",
      Op.defineTheme "t" [("fs", ThemeValue.bps [(300, "1rem")])],
      Op.applyTheme "t"] (by decide)⟩

/-- Claim C7: setBatch applies set once per entry of the input mapping,
in the order of the mapping, and processing a concatenation first
applies all entries of the first part and then those of the second, so
earlier entries are applied independently of later ones and there is no
atomicity across entries. -/
theorem claim7_setBatch :
    (∀ s : RegistryState, CssVars.setBatch s [] = s) ∧
    (∀ (s : RegistryState) (n v : String) (rest : List (String × String)),
      CssVars.setBatch s ((n, v) :: rest) =
        CssVars.setBatch (CssVars.set s n v).1 rest) ∧
    (∀ (s : RegistryState) (m1 m2 : List (String × String)),
      CssVars.setBatch s (m1 ++ m2) =
        CssVars.setBatch (CssVars.setBatch s m1) m2) := by
  refine ⟨fun s => rfl, fun s n v rest => rfl, fun s m1 m2 => ?_⟩
  unfold CssVars.setBatch
  rw [List.foldl_append]

/-- Claim C8: set always returns the canonical reference string built
from the name alone, whatever the value and the state, including states
with no document. -/
theorem claim8_set_returns (s : RegistryState) (name value : String) :
    (CssVars.set s name value).2 = "var(--" ++ name ++ ")" := by
  show "var(" ++ ("--" ++ name) ++ ")" = "var(--" ++ name ++ ")"
  rw [← String.append_assoc]
  rfl

/-- Claim C9: under the data model invariant that every breakpoint map
of the theme has at least one entry, applying a defined theme never
fails: the base value lookup at the smallest sorted width succeeds and
the error branch of responsive application is unreachable. -/
theorem claim9_applyTheme_total (s : RegistryState) (t : String)
    (theme : List (String × ThemeValue))
    (hl : lookupAssoc s.themes t = some theme) (hok : themeOk theme = true) :
    (CssVars.applyTheme s t).2 = none :=
  applyThemeOkAux s t theme hl hok

/-- Claim C9, witness: the concrete example theme applies without
error. -/
theorem claim9_witness :
    lookupAssoc demoState.themes "t" = some demoThemeDefs ∧
    themeOk demoThemeDefs = true ∧
    (CssVars.applyTheme demoState "t").2 = none :=
  ⟨by decide, by decide,
    claim9_applyTheme_total demoState "t" demoThemeDefs (by decide) (by decide)⟩

/-- Claim C10: the replacement scan is single pass: a matched reference
expression contributes its resolution text verbatim and scanning resumes
only after the match, so resolution text is never rescanned; at a state
whose variable a stores a value containing an embedded reference
expression, setting another variable to a reference to a stores that
text verbatim, still containing the pattern, although scanning that text
itself would resolve it to x. -/
theorem claim10_single_pass :
    (∀ (vars : List (String × String)) (s ref : List Char)
      (fb : Option (List Char)) (after : List Char),
      matchGetAt s = some (ref, fb, after) →
      replaceGetAux vars s.length s =
        resolveRef vars ref fb ++ replaceGetAux vars after.length after) ∧
    CssVars.get (CssVars.set chainState "out" "CssVars.get(\x27a\x27)").1
      "out" none = "CssVars.get(\x27b\x27, \x27x\x27)" ∧
    hasRef (CssVars.get (CssVars.set chainState "out"
      "CssVars.get(\x27a\x27)").1 "out" none) = true ∧
    processValue [] "CssVars.get(\x27b\x27, \x27x\x27)" = "x" :=
  ⟨replaceGetAux_match, by decide, by decide, by decide⟩

/-- Claim C10, witness: the single pass equation at a concrete match. -/
theorem claim10_witness :
    matchGetAt ("CssVars.get(\x27a\x27)".toList) = some (['a'], none, []) ∧
    replaceGetAux [] ("CssVars.get(\x27a\x27)".toList).length
      ("CssVars.get(\x27a\x27)".toList) =
      resolveRef [] ['a'] none ++
        replaceGetAux [] (([] : List Char)).length ([] : List Char) :=
  ⟨by decide, claim10_single_pass.1 [] ("CssVars.get(\x27a\x27)".toList) ['a']
    none [] (by decide)⟩
